import Mathlib

/-!
Verification of the SelfEcoGrab record-consolidation engine.

This file gives a shallow embedding of the two data cleaners of the
repository and proves the specified properties about them:

* `src/google雲端中的爬蟲/data_cleaner.py` — the version-aware reducer
  (`keep_only_changed_versions`, `_normalized_record`,
  `_record_timestamp_key`, `archive_old_merged_files`, `_load_json`);
* `src/utils/data_cleaner.py` — the `DataCleaner` class
  (`_parse_roc_date`, `_is_expired`, `_get_record_hash`,
  `_load_json_files`, `_save_batches`, and the dedup loop of
  `clean_crawler_type`).

Modelling conventions:

* A scraped record is a Python dict from field names to JSON values; it
  is modelled as an association list `Record := List (String × JVal)`
  with the scalar value type `JVal` (the engine treats field values
  opaquely, needing only decidable equality, truthiness, and lookup, so
  scalar values suffice for every property proved here).  Python dict
  equality is order-independent, so dict comparisons are modelled by
  comparing key-sorted canonical forms.
* Python's stable `sorted` (timsort) is modelled by `List.insertionSort`,
  which is also stable; a stable sort under a total transitive
  comparison is unique, so the two agree extensionally.
* Machine details with no bearing on the claims (MD5 collisions, UTF-8
  byte layout, file-system side effects) are modelled at the value
  level: the MD5 content hash is modelled as an injective function of
  the serialized record, and file moves are modelled by the list of
  files a move succeeds for.
-/

/-- A JSON scalar value as stored in one field of a scraped record.
Python's `None` is `JVal.null`; a missing dict key and a stored `None`
both read back as `None` via `dict.get`, so they are identified. -/
inductive JVal where
  | null : JVal
  | bool (b : Bool) : JVal
  | num (n : Int) : JVal
  | str (s : String) : JVal
deriving DecidableEq

/-- A scraped record: a Python dict, modelled as an association list. -/
def Record : Type := List (String × JVal)

instance : DecidableEq Record := inferInstanceAs (DecidableEq (List (String × JVal)))

/-- `rec.get(field)`: the stored value, or `None` when the key is
absent.  A stored `None` and an absent key are both `JVal.null`. -/
def pyGet (r : Record) (field : String) : JVal :=
  match List.lookup field r with
  | some v => v
  | none => JVal.null

/-- Python truthiness of a JSON scalar (`if not ts: ...`). -/
def truthy : JVal → Bool
  | JVal.null => false
  | JVal.bool b => b
  | JVal.num n => !(decide (n = 0))
  | JVal.str s => !(decide (s = ""))

/-- `EXCLUDED_FIELDS_FOR_CHANGE_DETECTION` from the google-drive cleaner:
capture-timestamp field names ignored by change detection. -/
def EXCLUDED_FIELDS_FOR_CHANGE_DETECTION : List String :=
  ["scrapedAt", "scraped_at", "scrapedTime", "scrape_time",
   "scraped_at_ts", "lastUpdateTime", "updatedAt", "updated_at"]

/-- Whether a field name starts with the internal-use marker, as
`k.startswith("_")` does. -/
def startsWithUnderscore (s : String) : Bool :=
  match s.data with
  | [] => false
  | c :: _ => decide (c = '_')

/-- `_normalized_record`: drop the excluded capture-timestamp fields and
every field whose name starts with `"_"`. -/
def _normalized_record (r : Record) : Record :=
  r.filter (fun kv =>
    !(EXCLUDED_FIELDS_FOR_CHANGE_DETECTION.contains kv.1) &&
    !(startsWithUnderscore kv.1))

/-- Code-point comparison of strings as lists of characters: Python's
lexicographic string order (`"a" <= "b"`), also used for `sorted` on
file paths. -/
def charsLe : List Char → List Char → Bool
  | [], _ => true
  | _ :: _, [] => false
  | a :: as, b :: bs =>
      decide (a.toNat < b.toNat) || (decide (a.toNat = b.toNat) && charsLe as bs)

theorem charsLe_trans : ∀ {x y z : List Char},
    charsLe x y = true → charsLe y z = true → charsLe x z = true := by
  intro x
  induction x with
  | nil => intro y z _ _; rfl
  | cons a as ih =>
    intro y z hxy hyz
    cases y with
    | nil => simp [charsLe] at hxy
    | cons b bs =>
      cases z with
      | nil => simp [charsLe] at hyz
      | cons c cs =>
        simp only [charsLe, Bool.or_eq_true, Bool.and_eq_true, decide_eq_true_eq] at *
        rcases hxy with h1 | ⟨h1, h2⟩
        · rcases hyz with h3 | ⟨h3, h4⟩
          · exact Or.inl (by omega)
          · exact Or.inl (by omega)
        · rcases hyz with h3 | ⟨h3, h4⟩
          · exact Or.inl (by omega)
          · exact Or.inr ⟨by omega, ih h2 h4⟩

theorem charsLe_total : ∀ (x y : List Char),
    charsLe x y = true ∨ charsLe y x = true := by
  intro x
  induction x with
  | nil => intro y; exact Or.inl rfl
  | cons a as ih =>
    intro y
    cases y with
    | nil => exact Or.inr rfl
    | cons b bs =>
      simp only [charsLe, Bool.or_eq_true, Bool.and_eq_true, decide_eq_true_eq]
      rcases Nat.lt_trichotomy a.toNat b.toNat with h | h | h
      · exact Or.inl (Or.inl h)
      · rcases ih bs with h2 | h2
        · exact Or.inl (Or.inr ⟨h, h2⟩)
        · exact Or.inr (Or.inr ⟨h.symm, h2⟩)
      · exact Or.inr (Or.inl h)

/-- Ordering on record fields by key (Python's `sort_keys=True` /
canonical dict comparison order). -/
def fieldKeyRel (a b : String × JVal) : Prop :=
  charsLe a.1.data b.1.data = true

instance : DecidableRel fieldKeyRel := fun a b =>
  inferInstanceAs (Decidable (_ = true))

instance : IsTrans (String × JVal) fieldKeyRel :=
  ⟨fun _ _ _ h1 h2 => charsLe_trans h1 h2⟩

instance : IsTotal (String × JVal) fieldKeyRel :=
  ⟨fun a b => charsLe_total a.1.data b.1.data⟩

/-- Canonical (key-sorted) form of a record.  Two Python dicts are
`==`-equal exactly when their canonical forms are equal, so dict
equality is modelled through this form. -/
def canonRecord (r : Record) : Record :=
  List.insertionSort fieldKeyRel r

/-- The Fingerprint of a record: its normalized form in canonical
order.  `_content_has_changed old new` is `True` exactly when the
fingerprints differ. -/
def fingerprint (r : Record) : Record :=
  canonRecord (_normalized_record r)

/-- `_content_has_changed`: dict inequality of the normalized records. -/
def _content_has_changed (old new : Record) : Bool :=
  !(decide (fingerprint old = fingerprint new))

/-- A Python `datetime` value: civil fields plus an optional UTC offset
in minutes (`none` models a naive datetime). -/
structure PyDateTime where
  year : Nat
  month : Nat
  day : Nat
  hour : Nat
  minute : Nat
  second : Nat
  micro : Nat
  offMinutes : Option Int
deriving DecidableEq

/-- Day count of a civil date from an arbitrary fixed epoch, by the
standard civil-calendar day-numbering algorithm (proleptic Gregorian,
floor divisions), used to linearize datetimes for comparison. -/
def daysFromCivil (y m d : Int) : Int :=
  let y2 := y - (if m ≤ 2 then 1 else 0)
  let era := Int.fdiv y2 400
  let yoe := y2 - era * 400
  let mp := Int.emod (m + 9) 12
  let doy := Int.fdiv (153 * mp + 2) 5 + d - 1
  let doe := yoe * 365 + Int.fdiv yoe 4 - Int.fdiv yoe 100 + doy
  era * 146097 + doe - 719468

/-- Linearization of a datetime in microseconds, with the UTC offset
subtracted (a naive datetime counts as offset zero).  Python compares
aware datetimes by UTC instant and naive ones field-wise; both agree
with comparing this code (Python raises on naive-vs-aware comparison,
which the model totalizes). -/
def dtCode (t : PyDateTime) : Int :=
  let off : Int := match t.offMinutes with
    | some o => o
    | none => 0
  ((daysFromCivil (Int.ofNat t.year) (Int.ofNat t.month) (Int.ofNat t.day)) * 86400
    + (Int.ofNat t.hour) * 3600 + (Int.ofNat t.minute) * 60 + (Int.ofNat t.second)
    - off * 60) * 1000000 + (Int.ofNat t.micro)

/-- Whether `y` is a leap year (Gregorian). -/
def isLeapYear (y : Nat) : Bool :=
  (decide (y % 4 = 0) && !(decide (y % 100 = 0))) || decide (y % 400 = 0)

/-- Days in a month, as `datetime` validates them. -/
def daysInMonth (y m : Nat) : Nat :=
  if m = 2 then (if isLeapYear y then 29 else 28)
  else if m = 4 ∨ m = 6 ∨ m = 9 ∨ m = 11 then 30
  else 31

/-- Field validation performed by the `datetime` constructor. -/
def validYmd (y m d : Nat) : Bool :=
  decide (1 ≤ y) && decide (y ≤ 9999) &&
  decide (1 ≤ m) && decide (m ≤ 12) &&
  decide (1 ≤ d) && decide (d ≤ daysInMonth y m)

/-- Decimal digit test on characters. -/
def isDigitCh (c : Char) : Bool :=
  decide ('0'.toNat ≤ c.toNat) && decide (c.toNat ≤ '9'.toNat)

/-- Value of a decimal digit character. -/
def digitVal (c : Char) : Nat := c.toNat - '0'.toNat

/-- Read exactly `n` decimal digits, returning their value and the rest. -/
def readDigits : Nat → List Char → Option (Nat × List Char)
  | 0, cs => some (0, cs)
  | n + 1, c :: cs =>
    if isDigitCh c then
      match readDigits n cs with
      | some (v, rest) => some (digitVal c * 10 ^ n + v, rest)
      | none => none
    else none
  | _ + 1, [] => none

/-- Read between 1 and `n` decimal digits greedily, returning the
digits read (most significant first) and the rest. -/
def readUpToDigits : Nat → List Char → (List Nat × List Char)
  | 0, cs => ([], cs)
  | n + 1, c :: cs =>
    if isDigitCh c then
      let r := readUpToDigits n cs
      (digitVal c :: r.1, r.2)
    else ([], c :: cs)
  | _ + 1, [] => ([], [])

/-- Microsecond value of a fractional-seconds digit list (1–6 digits,
scaled as `fromisoformat` scales them). -/
def fracMicro (ds : List Nat) : Nat :=
  (ds.foldl (fun acc d => acc * 10 + d) 0) * 10 ^ (6 - ds.length)

/-- Parse the optional `±HH:MM` UTC-offset suffix; the whole remaining
input must be consumed. -/
def parseOffsetEnd : List Char → Option (Option Int)
  | [] => some none
  | c :: cs =>
    if c = '+' ∨ c = '-' then
      match readDigits 2 cs with
      | some (oh, rest1) =>
        match rest1 with
        | ':' :: rest2 =>
          match readDigits 2 rest2 with
          | some (om, []) =>
            if oh < 24 ∧ om < 60 then
              let mins : Int := Int.ofNat (oh * 60 + om)
              some (some (if c = '-' then -mins else mins))
            else none
          | _ => none
        | _ => none
      | none => none
    else none

/-- Parse the optional time part `HH:MM[:SS[.ffffff]]` plus optional
offset, the whole input being consumed. -/
def parseTimeEnd (y m d : Nat) : List Char → Option PyDateTime
  | cs =>
    match readDigits 2 cs with
    | some (hh, ':' :: cs1) =>
      match readDigits 2 cs1 with
      | some (mi, cs2) =>
        let contSec : Option (Nat × Nat × List Char) :=
          match cs2 with
          | ':' :: cs3 =>
            match readDigits 2 cs3 with
            | some (ss, cs4) =>
              match cs4 with
              | '.' :: cs5 =>
                match readUpToDigits 6 cs5 with
                | (ds, cs6) => if ds = [] then none else some (ss, fracMicro ds, cs6)
              | _ => some (ss, 0, cs4)
            | none => none
          | _ => some (0, 0, cs2)
        match contSec with
        | some (ss, us, rest) =>
          if hh < 24 ∧ mi < 60 ∧ ss < 60 then
            match parseOffsetEnd rest with
            | some off => some ⟨y, m, d, hh, mi, ss, us, off⟩
            | none => none
          else none
        | none => none
      | _ => none
    | _ => none

/-- Model of `datetime.fromisoformat` on extended-format ISO-8601
strings `YYYY-MM-DD[(T| )HH:MM[:SS[.ffffff]]][±HH:MM]`, the format
family the scrapers emit (`datetime.now().isoformat()` and its `Z`
rewriting). Returns `none` where `fromisoformat` raises. -/
def fromisoformat (s : String) : Option PyDateTime :=
  match readDigits 4 s.data with
  | some (y, '-' :: cs1) =>
    match readDigits 2 cs1 with
    | some (m, '-' :: cs2) =>
      match readDigits 2 cs2 with
      | some (d, rest) =>
        if validYmd y m d then
          match rest with
          | [] => some ⟨y, m, d, 0, 0, 0, 0, none⟩
          | c :: cs3 =>
            if c = 'T' ∨ c = ' ' then parseTimeEnd y m d cs3 else none
        else none
      | _ => none
    | _ => none
  | _ => none

/-- `ts.replace("Z", "+00:00")`: every occurrence of the one-character
substring `"Z"` is replaced. -/
def replaceZ (s : String) : String :=
  ⟨s.data.flatMap (fun c => if c = 'Z' then "+00:00".data else [c])⟩

/-- The sort value carried beside the priority: a parsed datetime at
priority 0, or the raw scalar at priorities 1 and 2. -/
inductive TsVal where
  | dt (t : PyDateTime) : TsVal
  | raw (v : JVal) : TsVal
deriving DecidableEq

/-- The sort key returned by `_record_timestamp_key`. -/
def TsKey : Type := Nat × TsVal

instance : DecidableEq TsKey := inferInstanceAs (DecidableEq (Nat × TsVal))

/-- The timestamp field candidates, in source order: capture-time
variants before creation-time variants. -/
def tsFieldNames : List String :=
  ["scrapedAt", "scraped_at", "scrapedTime", "scrape_time",
   "createdAt", "created_at"]

/-- Walk of the candidate fields performed by `_record_timestamp_key`:
skip falsy values; on the first truthy value, parse strings as ISO
datetimes for priority 0, else return the raw value at priority 1. -/
def tsKeyAux : List String → Record → TsKey
  | [], _ => (2, TsVal.raw (JVal.str ""))
  | f :: rest, r =>
    let ts := pyGet r f
    if truthy ts then
      match ts with
      | JVal.str s =>
        match fromisoformat (replaceZ s) with
        | some t => (0, TsVal.dt t)
        | none => (1, TsVal.raw (JVal.str s))
      | v => (1, TsVal.raw v)
    else tsKeyAux rest r

/-- `_record_timestamp_key`: the `(priority, value)` sort key of a
record. -/
def _record_timestamp_key (r : Record) : TsKey :=
  tsKeyAux tsFieldNames r

/-- Lexicographic step on a `Nat` component: strictly smaller wins,
equal defers to the rest of the comparison. -/
def lexNat (x y : Nat) (rest : Bool) : Bool :=
  decide (x < y) || (decide (x = y) && rest)

/-- Lexicographic step on an `Int` component. -/
def lexInt (x y : Int) (rest : Bool) : Bool :=
  decide (x < y) || (decide (x = y) && rest)

theorem lexNat_trans {x y z : Nat} {r s t : Bool}
    (h : r = true → s = true → t = true) :
    lexNat x y r = true → lexNat y z s = true → lexNat x z t = true := by
  simp only [lexNat, Bool.or_eq_true, Bool.and_eq_true, decide_eq_true_eq]
  rintro (h1 | ⟨h1, h2⟩) (h3 | ⟨h3, h4⟩)
  · exact Or.inl (by omega)
  · exact Or.inl (by omega)
  · exact Or.inl (by omega)
  · exact Or.inr ⟨by omega, h h2 h4⟩

theorem lexNat_total {x y : Nat} {r s : Bool}
    (h : r = true ∨ s = true) :
    lexNat x y r = true ∨ lexNat y x s = true := by
  simp only [lexNat, Bool.or_eq_true, Bool.and_eq_true, decide_eq_true_eq]
  rcases Nat.lt_trichotomy x y with hl | hl | hl
  · exact Or.inl (Or.inl hl)
  · rcases h with h | h
    · exact Or.inl (Or.inr ⟨hl, h⟩)
    · exact Or.inr (Or.inr ⟨hl.symm, h⟩)
  · exact Or.inr (Or.inl hl)

theorem lexInt_trans {x y z : Int} {r s t : Bool}
    (h : r = true → s = true → t = true) :
    lexInt x y r = true → lexInt y z s = true → lexInt x z t = true := by
  simp only [lexInt, Bool.or_eq_true, Bool.and_eq_true, decide_eq_true_eq]
  rintro (h1 | ⟨h1, h2⟩) (h3 | ⟨h3, h4⟩)
  · exact Or.inl (by omega)
  · exact Or.inl (by omega)
  · exact Or.inl (by omega)
  · exact Or.inr ⟨by omega, h h2 h4⟩

theorem lexInt_total {x y : Int} {r s : Bool}
    (h : r = true ∨ s = true) :
    lexInt x y r = true ∨ lexInt y x s = true := by
  simp only [lexInt, Bool.or_eq_true, Bool.and_eq_true, decide_eq_true_eq]
  rcases Int.lt_trichotomy x y with hl | hl | hl
  · exact Or.inl (Or.inl hl)
  · rcases h with h | h
    · exact Or.inl (Or.inr ⟨hl, h⟩)
    · exact Or.inr (Or.inr ⟨hl.symm, h⟩)
  · exact Or.inr (Or.inl hl)

/-- Constructor rank of a sort value: parsed datetimes before raw
values (they never meet at the same priority in practice). -/
def tsValRank : TsVal → Nat
  | TsVal.dt _ => 0
  | TsVal.raw _ => 1

/-- Datetime component of a sort value. -/
def tsValDt : TsVal → Int
  | TsVal.dt t => dtCode t
  | TsVal.raw _ => 0

/-- Scalar-type rank of a raw value, following Python comparability:
`None` is incomparable (ranked first), booleans and numbers compare
numerically with each other, strings compare with strings. -/
def jRank : JVal → Nat
  | JVal.null => 0
  | JVal.bool _ => 1
  | JVal.num _ => 1
  | JVal.str _ => 2

/-- Numeric component of a raw value (`True == 1`, `False == 0`). -/
def jNum : JVal → Int
  | JVal.null => 0
  | JVal.bool b => if b then 1 else 0
  | JVal.num n => n
  | JVal.str _ => 0

/-- String component of a raw value. -/
def jChars : JVal → List Char
  | JVal.str s => s.data
  | _ => []

/-- Raw component of a sort value. -/
def tsValRaw : TsVal → JVal
  | TsVal.dt _ => JVal.null
  | TsVal.raw v => v

/-- Total comparison of `(priority, value)` sort keys, modelling
Python's tuple comparison: priority first, then the value.  Python
raises on the mixed-type value comparisons that cannot occur between
keys of equal priority; the model totalizes them. -/
def tsKeyLe (a b : TsKey) : Bool :=
  lexNat a.1 b.1
    (lexNat (tsValRank a.2) (tsValRank b.2)
      (lexInt (tsValDt a.2) (tsValDt b.2)
        (lexNat (jRank (tsValRaw a.2)) (jRank (tsValRaw b.2))
          (lexInt (jNum (tsValRaw a.2)) (jNum (tsValRaw b.2))
            (charsLe (jChars (tsValRaw a.2)) (jChars (tsValRaw b.2)))))))

theorem tsKeyLe_trans {a b c : TsKey} :
    tsKeyLe a b = true → tsKeyLe b c = true → tsKeyLe a c = true := by
  unfold tsKeyLe
  exact lexNat_trans (lexNat_trans (lexInt_trans (lexNat_trans (lexInt_trans
    (fun h1 h2 => charsLe_trans h1 h2)))))

theorem tsKeyLe_total (a b : TsKey) :
    tsKeyLe a b = true ∨ tsKeyLe b a = true := by
  unfold tsKeyLe
  exact lexNat_total (lexNat_total (lexInt_total (lexNat_total (lexInt_total
    (charsLe_total _ _)))))

/-- The comparison `sorted(versions, key=_record_timestamp_key)` sorts
by: timestamp keys compared as tuples. -/
def recRel (a b : Record) : Prop :=
  tsKeyLe (_record_timestamp_key a) (_record_timestamp_key b) = true

instance : DecidableRel recRel := fun a b =>
  inferInstanceAs (Decidable (_ = true))

instance : IsTrans Record recRel :=
  ⟨fun _ _ _ h1 h2 => tsKeyLe_trans h1 h2⟩

instance : IsTotal Record recRel :=
  ⟨fun a b => tsKeyLe_total (_record_timestamp_key a) (_record_timestamp_key b)⟩

/-- `grouped.setdefault(key, []).append(r)` over an insertion-ordered
dict, modelled on an association list: append to the existing group of
`key`, or add a new group at the end. -/
def addToGroups : List (JVal × List Record) → JVal → Record → List (JVal × List Record)
  | [], k, r => [(k, [r])]
  | (k', rs) :: rest, k, r =>
    if k' = k then (k', rs ++ [r]) :: rest
    else (k', rs) :: addToGroups rest k r

/-- One grouping step of `keep_only_changed_versions`: records whose
id value reads back as `None` are skipped. -/
def groupStep (idField : String) (gs : List (JVal × List Record)) (r : Record) :
    List (JVal × List Record) :=
  let key := pyGet r idField
  if key = JVal.null then gs else addToGroups gs key r

/-- Grouping loop of `keep_only_changed_versions`, with the dict's
insertion order made explicit. -/
def groupByIdField (records : List Record) (idField : String) :
    List (JVal × List Record) :=
  records.foldl (groupStep idField) []

/-- Inner reduction walk: `previous_kept` is `prev`; keep a version
exactly when its content changed against the last kept one. -/
def reduceChainFrom (prev : Record) : List Record → List Record
  | [] => []
  | v :: rest =>
    if _content_has_changed prev v then v :: reduceChainFrom v rest
    else reduceChainFrom prev rest

/-- Reduction of one sorted version group: the first record is always
kept and seeds `previous_kept`. -/
def reduceGroup : List Record → List Record
  | [] => []
  | v :: rest => v :: reduceChainFrom v rest

/-- `keep_only_changed_versions` (Strategy C): group by `id_field`,
sort each group by `_record_timestamp_key`, and keep only the versions
whose content changed against the previously kept version. -/
def keep_only_changed_versions (records : List Record) (idField : String) :
    List Record :=
  (groupByIdField records idField).flatMap
    (fun g => reduceGroup (List.insertionSort recRel g.2))

/-- Adjacent-change relation between records: the later one counts as a
new version. -/
def changedP (a b : Record) : Prop := _content_has_changed a b = true

theorem reduceChainFrom_sublist (prev : Record) (l : List Record) :
    (reduceChainFrom prev l).Sublist l := by
  induction l generalizing prev with
  | nil => simp [reduceChainFrom]
  | cons v rest ih =>
    simp only [reduceChainFrom]
    by_cases h : _content_has_changed prev v = true
    · simp only [h, if_true]
      exact (ih v).cons₂ v
    · simp only [Bool.not_eq_true] at h
      simp only [h, Bool.false_eq_true, if_false]
      exact (ih prev).cons v

theorem reduceGroup_sublist (l : List Record) : (reduceGroup l).Sublist l := by
  cases l with
  | nil => simp [reduceGroup]
  | cons v rest => exact (reduceChainFrom_sublist v rest).cons₂ v

theorem reduceChainFrom_chain (prev : Record) (l : List Record) :
    List.Chain changedP prev (reduceChainFrom prev l) := by
  induction l generalizing prev with
  | nil => exact List.Chain.nil
  | cons v rest ih =>
    simp only [reduceChainFrom]
    by_cases h : _content_has_changed prev v = true
    · simp only [h, if_true]
      exact List.Chain.cons h (ih v)
    · simp only [Bool.not_eq_true] at h
      simp only [h, Bool.false_eq_true, if_false]
      exact ih prev

theorem reduceGroup_chain' (l : List Record) :
    List.Chain' changedP (reduceGroup l) := by
  cases l with
  | nil => exact List.chain'_nil
  | cons v rest => exact reduceChainFrom_chain v rest

theorem reduceChainFrom_of_chain {prev : Record} {l : List Record}
    (h : List.Chain changedP prev l) : reduceChainFrom prev l = l := by
  induction l generalizing prev with
  | nil => rfl
  | cons v rest ih =>
    rcases List.chain_cons.mp h with ⟨h1, h2⟩
    have h1' : _content_has_changed prev v = true := h1
    simp only [reduceChainFrom]
    rw [if_pos h1']
    exact congrArg (v :: ·) (ih h2)

theorem reduceGroup_of_chain' {l : List Record}
    (h : List.Chain' changedP l) : reduceGroup l = l := by
  cases l with
  | nil => rfl
  | cons v rest =>
    simp only [reduceGroup]
    exact congrArg (v :: ·) (reduceChainFrom_of_chain h)

theorem reduceGroup_idem (l : List Record) :
    reduceGroup (reduceGroup l) = reduceGroup l :=
  reduceGroup_of_chain' (reduceGroup_chain' l)

theorem reduceGroup_ne_nil {l : List Record} (h : l ≠ []) :
    reduceGroup l ≠ [] := by
  cases l with
  | nil => exact absurd rfl h
  | cons v rest => simp [reduceGroup]

theorem mem_of_mem_reduceGroup {x : Record} {l : List Record}
    (h : x ∈ reduceGroup l) : x ∈ l :=
  (reduceGroup_sublist l).subset h

/-- The group-structure invariant maintained by the grouping loop:
group keys are distinct and non-null, groups are non-empty, and every
record sits in the group of its own id value. -/
def GInv (idField : String) (gs : List (JVal × List Record)) : Prop :=
  (gs.map Prod.fst).Nodup ∧
  ∀ p ∈ gs, p.1 ≠ JVal.null ∧ p.2 ≠ [] ∧ ∀ x ∈ p.2, pyGet x idField = p.1

theorem addToGroups_keys (gs : List (JVal × List Record)) (k : JVal) (r : Record) :
    (addToGroups gs k r).map Prod.fst = gs.map Prod.fst ∨
    (addToGroups gs k r).map Prod.fst = gs.map Prod.fst ++ [k] := by
  induction gs with
  | nil => exact Or.inr rfl
  | cons p rest ih =>
    obtain ⟨k', rs⟩ := p
    simp only [addToGroups]
    by_cases h : k' = k
    · rw [if_pos h]; exact Or.inl rfl
    · rw [if_neg h]
      rcases ih with h2 | h2
      · exact Or.inl (by simp [h2])
      · exact Or.inr (by simp [h2])

theorem addToGroups_GInv {idField : String} {gs : List (JVal × List Record)}
    {k : JVal} {r : Record} (hg : GInv idField gs)
    (hk : pyGet r idField = k) (hn : k ≠ JVal.null) :
    GInv idField (addToGroups gs k r) := by
  obtain ⟨hnd, hmem⟩ := hg
  induction gs with
  | nil =>
    refine ⟨by simp [addToGroups], ?_⟩
    intro p hp
    simp only [addToGroups, List.mem_singleton] at hp
    subst hp
    exact ⟨hn, by simp, by simpa using hk⟩
  | cons q rest ih =>
    obtain ⟨k', rs⟩ := q
    simp only [addToGroups]
    by_cases h : k' = k
    · rw [if_pos h]
      subst h
      refine ⟨by simpa using hnd, ?_⟩
      intro p hp
      rcases List.mem_cons.mp hp with hp | hp
      · subst hp
        rcases hmem (k', rs) (List.mem_cons_self _ _) with ⟨a1, _, a3⟩
        refine ⟨a1, by simp, ?_⟩
        intro x hx
        rcases List.mem_append.mp hx with hx | hx
        · exact a3 x hx
        · rw [List.mem_singleton.mp hx, hk]
      · exact hmem p (List.mem_cons_of_mem _ hp)
    · rw [if_neg h]
      simp only [List.map_cons, List.nodup_cons] at hnd
      obtain ⟨hk', hnd'⟩ := hnd
      have ihh := ih hnd' (fun p hp => hmem p (List.mem_cons_of_mem _ hp))
      refine ⟨?_, ?_⟩
      · simp only [List.map_cons, List.nodup_cons]
        refine ⟨?_, ihh.1⟩
        rcases addToGroups_keys rest k r with he | he
        · rw [he]; exact hk'
        · rw [he]
          intro hc
          rcases List.mem_append.mp hc with hc | hc
          · exact hk' hc
          · exact h (List.mem_singleton.mp hc)
      · intro p hp
        rcases List.mem_cons.mp hp with hp | hp
        · subst hp
          exact hmem (k', rs) (List.mem_cons_self _ _)
        · exact ihh.2 p hp

theorem groupStep_GInv {idField : String} {gs : List (JVal × List Record)}
    (hg : GInv idField gs) (r : Record) :
    GInv idField (groupStep idField gs r) := by
  unfold groupStep
  by_cases h : pyGet r idField = JVal.null
  · rw [if_pos h]; exact hg
  · rw [if_neg h]; exact addToGroups_GInv hg rfl h

theorem foldl_groupStep_GInv {idField : String} (records : List Record)
    {gs : List (JVal × List Record)} (hg : GInv idField gs) :
    GInv idField (records.foldl (groupStep idField) gs) := by
  induction records generalizing gs with
  | nil => exact hg
  | cons r rest ih => exact ih (groupStep_GInv hg r)

theorem groupByIdField_GInv (records : List Record) (idField : String) :
    GInv idField (groupByIdField records idField) :=
  foldl_groupStep_GInv records ⟨List.nodup_nil, by simp⟩

/-- Total number of records held across all groups. -/
def sizeSum (gs : List (JVal × List Record)) : Nat :=
  (gs.map (fun p => p.2.length)).sum

theorem addToGroups_sizeSum (gs : List (JVal × List Record)) (k : JVal) (r : Record) :
    sizeSum (addToGroups gs k r) = sizeSum gs + 1 := by
  induction gs with
  | nil => rfl
  | cons p rest ih =>
    obtain ⟨k', rs⟩ := p
    simp only [addToGroups]
    by_cases h : k' = k
    · rw [if_pos h]
      simp [sizeSum]
      omega
    · rw [if_neg h]
      simp only [sizeSum, List.map_cons, List.sum_cons] at *
      omega

theorem foldl_groupStep_sizeSum {idField : String} (records : List Record)
    (gs : List (JVal × List Record)) :
    sizeSum (records.foldl (groupStep idField) gs) =
      sizeSum gs +
        (records.filter (fun r => !(decide (pyGet r idField = JVal.null)))).length := by
  induction records generalizing gs with
  | nil => simp
  | cons r rest ih =>
    simp only [List.foldl_cons, List.filter_cons]
    by_cases h : pyGet r idField = JVal.null
    · have hstep : groupStep idField gs r = gs := by
        unfold groupStep; rw [if_pos h]
      rw [hstep]
      simp [h, ih]
    · have hstep : groupStep idField gs r = addToGroups gs (pyGet r idField) r := by
        unfold groupStep; rw [if_neg h]
      rw [hstep]
      simp only [h, decide_False, decide_True, Bool.not_false, if_true,
        decide_eq_true_eq]
      rw [ih, addToGroups_sizeSum]
      simp only [List.length_cons]
      omega

theorem groupByIdField_sizeSum (records : List Record) (idField : String) :
    sizeSum (groupByIdField records idField) =
      (records.filter (fun r => !(decide (pyGet r idField = JVal.null)))).length := by
  have := @foldl_groupStep_sizeSum idField records []
  simpa [sizeSum] using this

theorem mem_addToGroups_of_mem {gs : List (JVal × List Record)}
    {x : Record} (hx : ∃ p ∈ gs, x ∈ p.2) (k : JVal) (r : Record) :
    ∃ p ∈ addToGroups gs k r, x ∈ p.2 := by
  induction gs with
  | nil => rcases hx with ⟨p, hp, _⟩; exact absurd hp (List.not_mem_nil p)
  | cons q rest ih =>
    obtain ⟨k', rs⟩ := q
    rcases hx with ⟨p, hp, hxp⟩
    simp only [addToGroups]
    by_cases h : k' = k
    · rw [if_pos h]
      rcases List.mem_cons.mp hp with hp | hp
      · subst hp
        exact ⟨(k', rs ++ [r]), List.mem_cons_self _ _,
          List.mem_append_left _ hxp⟩
      · exact ⟨p, List.mem_cons_of_mem _ hp, hxp⟩
    · rw [if_neg h]
      rcases List.mem_cons.mp hp with hp | hp
      · subst hp
        exact ⟨(k', rs), List.mem_cons_self _ _, hxp⟩
      · rcases ih ⟨p, hp, hxp⟩ with ⟨p', hp', hxp'⟩
        exact ⟨p', List.mem_cons_of_mem _ hp', hxp'⟩

theorem self_mem_addToGroups (gs : List (JVal × List Record)) (k : JVal) (r : Record) :
    ∃ p ∈ addToGroups gs k r, r ∈ p.2 := by
  induction gs with
  | nil => exact ⟨(k, [r]), List.mem_singleton_self _, List.mem_singleton_self _⟩
  | cons q rest ih =>
    obtain ⟨k', rs⟩ := q
    simp only [addToGroups]
    by_cases h : k' = k
    · rw [if_pos h]
      exact ⟨(k', rs ++ [r]), List.mem_cons_self _ _, by simp⟩
    · rw [if_neg h]
      rcases ih with ⟨p, hp, hrp⟩
      exact ⟨p, List.mem_cons_of_mem _ hp, hrp⟩

theorem mem_foldl_groupStep {idField : String} (records : List Record) :
    ∀ (gs : List (JVal × List Record)) (x : Record),
      ((x ∈ records ∧ pyGet x idField ≠ JVal.null) ∨ ∃ p ∈ gs, x ∈ p.2) →
      ∃ p ∈ records.foldl (groupStep idField) gs, x ∈ p.2 := by
  induction records with
  | nil =>
    intro gs x h
    rcases h with ⟨hx, _⟩ | h
    · exact absurd hx (List.not_mem_nil x)
    · exact h
  | cons r rest ih =>
    intro gs x h
    simp only [List.foldl_cons]
    apply ih
    rcases h with ⟨hx, hnn⟩ | h
    · rcases List.mem_cons.mp hx with hx | hx
      · subst hx
        right
        unfold groupStep
        rw [if_neg hnn]
        exact self_mem_addToGroups gs _ x
      · exact Or.inl ⟨hx, hnn⟩
    · right
      unfold groupStep
      by_cases hr : pyGet r idField = JVal.null
      · rw [if_pos hr]; exact h
      · rw [if_neg hr]; exact mem_addToGroups_of_mem h _ r

theorem mem_groupByIdField {idField : String} {records : List Record}
    {x : Record} (hx : x ∈ records) (hnn : pyGet x idField ≠ JVal.null) :
    ∃ p ∈ groupByIdField records idField, x ∈ p.2 :=
  mem_foldl_groupStep records [] x (Or.inl ⟨hx, hnn⟩)

theorem eq_of_mem_of_fst_eq {α β : Type} {gs : List (α × β)}
    (hnd : (gs.map Prod.fst).Nodup) {p q : α × β}
    (hp : p ∈ gs) (hq : q ∈ gs) (hfst : p.1 = q.1) : p = q := by
  induction gs with
  | nil => exact absurd hp (List.not_mem_nil p)
  | cons g rest ih =>
    simp only [List.map_cons, List.nodup_cons] at hnd
    obtain ⟨hg, hnd'⟩ := hnd
    rcases List.mem_cons.mp hp with hp1 | hp1 <;>
      rcases List.mem_cons.mp hq with hq1 | hq1
    · rw [hp1, hq1]
    · exfalso
      apply hg
      rw [hp1] at hfst
      rw [hfst]
      exact List.mem_map_of_mem Prod.fst hq1
    · exfalso
      apply hg
      rw [hq1] at hfst
      rw [← hfst]
      exact List.mem_map_of_mem Prod.fst hp1
    · exact ih hnd' hp1 hq1

theorem addToGroups_not_mem {gs : List (JVal × List Record)} {k : JVal}
    (h : k ∉ gs.map Prod.fst) (r : Record) :
    addToGroups gs k r = gs ++ [(k, [r])] := by
  induction gs with
  | nil => rfl
  | cons q rest ih =>
    obtain ⟨k', rs⟩ := q
    simp only [List.map_cons, List.mem_cons] at h
    push_neg at h
    simp only [addToGroups]
    rw [if_neg (fun hc => h.1 hc.symm)]
    rw [ih h.2]
    simp

theorem addToGroups_last {gs : List (JVal × List Record)} {k : JVal}
    (h : k ∉ gs.map Prod.fst) (acc : List Record) (r : Record) :
    addToGroups (gs ++ [(k, acc)]) k r = gs ++ [(k, acc ++ [r])] := by
  induction gs with
  | nil => simp [addToGroups]
  | cons q rest ih =>
    obtain ⟨k', rs⟩ := q
    simp only [List.map_cons, List.mem_cons] at h
    push_neg at h
    simp only [List.cons_append, addToGroups]
    rw [if_neg (fun hc => h.1 hc.symm)]
    exact congrArg ((k', rs) :: ·) (ih h.2)

theorem foldl_groupStep_block {idField : String} {gs : List (JVal × List Record)}
    {k : JVal} (hnotin : k ∉ gs.map Prod.fst) (hk : k ≠ JVal.null)
    (b : List Record) (hb : ∀ x ∈ b, pyGet x idField = k) (acc : List Record) :
    b.foldl (groupStep idField) (gs ++ [(k, acc)]) = gs ++ [(k, acc ++ b)] := by
  induction b generalizing acc with
  | nil => simp
  | cons x rest ih =>
    have hx : pyGet x idField = k := hb x (List.mem_cons_self _ _)
    simp only [List.foldl_cons]
    have hstep : groupStep idField (gs ++ [(k, acc)]) x = gs ++ [(k, acc ++ [x])] := by
      unfold groupStep
      rw [hx, if_neg hk]
      exact addToGroups_last hnotin acc x
    rw [hstep, ih (fun y hy => hb y (List.mem_cons_of_mem _ hy)) (acc ++ [x])]
    simp

theorem foldl_groupStep_blocks {idField : String} :
    ∀ (bs gs : List (JVal × List Record)),
      (bs.map Prod.fst).Nodup →
      (∀ p ∈ bs, p.1 ∉ gs.map Prod.fst) →
      (∀ p ∈ bs, p.1 ≠ JVal.null ∧ p.2 ≠ [] ∧ ∀ x ∈ p.2, pyGet x idField = p.1) →
      (bs.flatMap Prod.snd).foldl (groupStep idField) gs = gs ++ bs := by
  intro bs
  induction bs with
  | nil => intro gs _ _ _; simp
  | cons p rest ih =>
    intro gs hnd hdisj hcond
    obtain ⟨k, b⟩ := p
    rcases hcond (k, b) (List.mem_cons_self _ _) with ⟨hk, hbne, hb⟩
    have hnotin : k ∉ gs.map Prod.fst := hdisj (k, b) (List.mem_cons_self _ _)
    have hfold : b.foldl (groupStep idField) gs = gs ++ [(k, b)] := by
      cases b with
      | nil => exact absurd rfl hbne
      | cons x b2 =>
        have hx : pyGet x idField = k := hb x (List.mem_cons_self _ _)
        simp only [List.foldl_cons]
        have hstep : groupStep idField gs x = gs ++ [(k, [x])] := by
          unfold groupStep
          rw [hx, if_neg hk]
          exact addToGroups_not_mem hnotin x
        rw [hstep, foldl_groupStep_block hnotin hk b2
          (fun y hy => hb y (List.mem_cons_of_mem _ hy)) [x]]
        simp
    simp only [List.flatMap_cons, List.foldl_append]
    rw [hfold]
    simp only [List.map_cons, List.nodup_cons] at hnd
    have hrest := ih (gs ++ [(k, b)]) hnd.2
      (by
        intro q hq
        simp only [List.map_append, List.map_cons, List.map_nil, List.mem_append,
          List.mem_singleton]
        push_neg
        refine ⟨hdisj q (List.mem_cons_of_mem _ hq), ?_⟩
        intro hc
        exact hnd.1 (hc ▸ List.mem_map_of_mem Prod.fst hq))
      (fun q hq => hcond q (List.mem_cons_of_mem _ hq))
    rw [hrest]
    simp

theorem groupByIdField_blocks {idField : String}
    {bs : List (JVal × List Record)}
    (hnd : (bs.map Prod.fst).Nodup)
    (hcond : ∀ p ∈ bs, p.1 ≠ JVal.null ∧ p.2 ≠ [] ∧ ∀ x ∈ p.2, pyGet x idField = p.1) :
    groupByIdField (bs.flatMap Prod.snd) idField = bs := by
  have := foldl_groupStep_blocks bs [] hnd (by simp) hcond
  simpa [groupByIdField] using this

theorem sorted_insertionSort_recRel (l : List Record) :
    List.Sorted recRel (List.insertionSort recRel l) :=
  List.sorted_insertionSort recRel l

theorem reduceGroup_of_sort_sorted (l : List Record) :
    List.Sorted recRel (reduceGroup (List.insertionSort recRel l)) :=
  List.Pairwise.sublist (reduceGroup_sublist _) (sorted_insertionSort_recRel l)

theorem insertionSort_reduceGroup_fix (l : List Record) :
    List.insertionSort recRel (reduceGroup (List.insertionSort recRel l)) =
      reduceGroup (List.insertionSort recRel l) :=
  List.Sorted.insertionSort_eq (reduceGroup_of_sort_sorted l)

/-- The reduced blocks of the version reducer: each input group paired
with its reduced, time-sorted version chain. -/
def versionBlocks (records : List Record) (idField : String) :
    List (JVal × List Record) :=
  (groupByIdField records idField).map
    (fun p => (p.1, reduceGroup (List.insertionSort recRel p.2)))

theorem flatMap_map_snd {α β : Type} (l : List (α × β)) (f : α × β → α × List Record) :
    (l.map f).flatMap Prod.snd = l.flatMap (fun x => (f x).2) := by
  induction l with
  | nil => rfl
  | cons x rest ih => simp [List.flatMap_cons, ih]

theorem keep_eq_flatMap_blocks (records : List Record) (idField : String) :
    keep_only_changed_versions records idField =
      (versionBlocks records idField).flatMap Prod.snd := by
  unfold keep_only_changed_versions versionBlocks
  rw [flatMap_map_snd]

theorem versionBlocks_cond (records : List Record) (idField : String) :
    ((versionBlocks records idField).map Prod.fst).Nodup ∧
    ∀ p ∈ versionBlocks records idField,
      p.1 ≠ JVal.null ∧ p.2 ≠ [] ∧ ∀ x ∈ p.2, pyGet x idField = p.1 := by
  obtain ⟨hnd, hmem⟩ := groupByIdField_GInv records idField
  constructor
  · unfold versionBlocks
    rw [List.map_map]
    exact hnd
  · intro p hp
    unfold versionBlocks at hp
    rcases List.mem_map.mp hp with ⟨q, hq, hpq⟩
    rcases hmem q hq with ⟨h1, h2, h3⟩
    subst hpq
    refine ⟨h1, ?_, ?_⟩
    · apply reduceGroup_ne_nil
      intro hc
      apply h2
      have := List.perm_insertionSort recRel q.2
      rw [hc] at this
      exact this.nil_eq.symm
    · intro x hx
      apply h3
      have hx2 : x ∈ List.insertionSort recRel q.2 := mem_of_mem_reduceGroup hx
      exact (List.perm_insertionSort recRel q.2).subset hx2

theorem groupByIdField_keep (records : List Record) (idField : String) :
    groupByIdField (keep_only_changed_versions records idField) idField =
      versionBlocks records idField := by
  rw [keep_eq_flatMap_blocks]
  rcases versionBlocks_cond records idField with ⟨hnd, hcond⟩
  exact groupByIdField_blocks hnd hcond

theorem flatMap_congr_mem {α β : Type} {l : List α} {f g : α → List β}
    (h : ∀ x ∈ l, f x = g x) : l.flatMap f = l.flatMap g := by
  induction l with
  | nil => rfl
  | cons x rest ih =>
    simp only [List.flatMap_cons]
    rw [h x (List.mem_cons_self _ _), ih (fun y hy => h y (List.mem_cons_of_mem _ hy))]

theorem flatMap_snd_length (bs : List (JVal × List Record)) :
    (bs.flatMap Prod.snd).length = sizeSum bs := by
  induction bs with
  | nil => rfl
  | cons p rest ih =>
    simp only [List.flatMap_cons, List.length_append, ih, sizeSum, List.map_cons,
      List.sum_cons]

theorem keep_length_le (records : List Record) (idField : String) :
    (keep_only_changed_versions records idField).length ≤ records.length := by
  rw [keep_eq_flatMap_blocks, flatMap_snd_length]
  have h1 : sizeSum (versionBlocks records idField) ≤
      sizeSum (groupByIdField records idField) := by
    unfold versionBlocks sizeSum
    rw [List.map_map]
    apply List.sum_le_sum
    intro p _
    simp only [Function.comp_apply]
    calc (reduceGroup (List.insertionSort recRel p.2)).length
        ≤ (List.insertionSort recRel p.2).length :=
          (reduceGroup_sublist _).length_le
      _ = p.2.length := (List.perm_insertionSort recRel p.2).length_eq
  have h2 := groupByIdField_sizeSum records idField
  have h3 : (records.filter
      (fun r => !(decide (pyGet r idField = JVal.null)))).length ≤ records.length :=
    List.length_filter_le _ _
  omega

theorem filter_key_all {idField : String} {l : List Record} {k : JVal}
    (h : ∀ x ∈ l, pyGet x idField = k) :
    l.filter (fun x => decide (pyGet x idField = k)) = l :=
  List.filter_eq_self.mpr (fun x hx => by simp [h x hx])

theorem filter_key_none {idField : String} {l : List Record} {c k : JVal}
    (h : ∀ x ∈ l, pyGet x idField = c) (hne : c ≠ k) :
    l.filter (fun x => decide (pyGet x idField = k)) = [] := by
  rw [List.filter_eq_nil]
  intro x hx
  simp [h x hx, hne]

theorem blocks_filter_key {idField : String} :
    ∀ {bs : List (JVal × List Record)},
      (bs.map Prod.fst).Nodup →
      (∀ p ∈ bs, ∀ x ∈ p.2, pyGet x idField = p.1) →
      ∀ p ∈ bs,
        (bs.flatMap Prod.snd).filter (fun x => decide (pyGet x idField = p.1)) = p.2 := by
  intro bs
  induction bs with
  | nil => intro _ _ p hp; exact absurd hp (List.not_mem_nil p)
  | cons q rest ih =>
    intro hnd hcond p hp
    simp only [List.map_cons, List.nodup_cons] at hnd
    simp only [List.flatMap_cons, List.filter_append]
    rcases List.mem_cons.mp hp with hp1 | hp1
    · subst hp1
      rw [filter_key_all (hcond p (List.mem_cons_self _ _))]
      have hnil : (rest.flatMap Prod.snd).filter
          (fun x => decide (pyGet x idField = p.1)) = [] := by
        rw [List.filter_eq_nil]
        intro x hx
        rcases List.mem_flatMap.mp hx with ⟨r, hr, hxr⟩
        have hkey : pyGet x idField = r.1 :=
          hcond r (List.mem_cons_of_mem _ hr) x hxr
        have hne : r.1 ≠ p.1 := by
          intro hc
          exact hnd.1 (hc ▸ List.mem_map_of_mem Prod.fst hr)
        simp [hkey, hne]
      rw [hnil, List.append_nil]
    · have hne : q.1 ≠ p.1 := by
        intro hc
        exact hnd.1 (hc ▸ List.mem_map_of_mem Prod.fst hp1)
      rw [filter_key_none (hcond q (List.mem_cons_self _ _)) hne]
      rw [List.nil_append]
      exact ih hnd.2 (fun r hr => hcond r (List.mem_cons_of_mem _ hr)) p hp1

/-- The Step-3 walk of §4.3 of the specification, stated as a relation:
the first record of the group is always kept, and each later record is
kept (becoming the new "last kept") exactly when its Fingerprint
differs from the Fingerprint of the most recently kept record. -/
inductive ReducesGroup : Option Record → List Record → List Record → Prop where
  | nil : ∀ last, ReducesGroup last [] []
  | first : ∀ v rest out,
      ReducesGroup (some v) rest out → ReducesGroup none (v :: rest) (v :: out)
  | keep : ∀ last v rest out, fingerprint last ≠ fingerprint v →
      ReducesGroup (some v) rest out →
      ReducesGroup (some last) (v :: rest) (v :: out)
  | skip : ∀ last v rest out, fingerprint last = fingerprint v →
      ReducesGroup (some last) rest out →
      ReducesGroup (some last) (v :: rest) out

theorem reducesGroup_reduceChainFrom (l : List Record) :
    ∀ prev, ReducesGroup (some prev) l (reduceChainFrom prev l) := by
  induction l with
  | nil => intro prev; exact ReducesGroup.nil _
  | cons v rest ih =>
    intro prev
    simp only [reduceChainFrom]
    by_cases h : fingerprint prev = fingerprint v
    · have hb : _content_has_changed prev v = false := by
        simp [_content_has_changed, h]
      rw [hb]
      simp only [Bool.false_eq_true, if_false]
      exact ReducesGroup.skip prev v rest _ h (ih prev)
    · have hb : _content_has_changed prev v = true := by
        simp [_content_has_changed, h]
      rw [hb]
      simp only [if_true]
      exact ReducesGroup.keep prev v rest _ h (ih v)

theorem reducesGroup_reduceGroup (l : List Record) :
    ReducesGroup none l (reduceGroup l) := by
  cases l with
  | nil => exact ReducesGroup.nil none
  | cons v rest => exact ReducesGroup.first v rest _ (reducesGroup_reduceChainFrom rest v)

theorem flatMap_map_gen {α β γ : Type} (f : α → β) (g : β → List γ) (l : List α) :
    (l.map f).flatMap g = l.flatMap (fun x => g (f x)) := by
  induction l with
  | nil => rfl
  | cons x rest ih => simp [List.flatMap_cons, ih]

theorem keep_def (records : List Record) (idField : String) :
    keep_only_changed_versions records idField =
      (groupByIdField records idField).flatMap
        (fun g => reduceGroup (List.insertionSort recRel g.2)) := rfl

/-- `record.get(id_field, "")`: the id component of the dedup key, with
the empty string as the default for a missing key. -/
def pyGetD (r : Record) (field : String) (dflt : JVal) : JVal :=
  match List.lookup field r with
  | some v => v
  | none => dflt

/-- `_get_record_hash`: the composite dedup key
`f"{record_id}_{content_hash}"`.  The MD5 hash of the canonical
(`sort_keys=True`) serialization is modelled as the canonical key-sorted
record itself (MD5 is injective on serializations up to collisions, and
canonical serialization is injective on dicts), so the key is the pair
of the id value and the full canonical record, capture-timestamp fields
included. -/
def _get_record_hash (r : Record) (idField : String) : JVal × Record :=
  (pyGetD r idField (JVal.str ""), canonRecord r)

/-- The dedup loop of `clean_crawler_type`: `seen_hashes` starts empty;
a record is appended to `unique_records` exactly when its composite key
has not been seen, and then its key is added to the seen set. -/
def dedupeGo (idField : String) (seen : List (JVal × Record)) :
    List Record → List Record
  | [] => []
  | r :: rest =>
    let h := _get_record_hash r idField
    if h ∈ seen then dedupeGo idField seen rest
    else r :: dedupeGo idField (h :: seen) rest

/-- The Duplicate Eliminator of §4.5: keep the first record observed
for each composite key. -/
def dedupe (records : List Record) (idField : String) : List Record :=
  dedupeGo idField [] records

/-- Specification-side formulation of §4.5: walk the list carrying the
records already seen; keep a record exactly when no earlier record has
the same composite key. -/
def firstKeyOccurrences (idField : String) (pre : List Record) :
    List Record → List Record
  | [] => []
  | r :: rest =>
    if _get_record_hash r idField ∈
        pre.map (fun x => _get_record_hash x idField) then
      firstKeyOccurrences idField (pre ++ [r]) rest
    else r :: firstKeyOccurrences idField (pre ++ [r]) rest

theorem dedupeGo_sublist (idField : String) (seen : List (JVal × Record)) :
    ∀ l : List Record, (dedupeGo idField seen l).Sublist l := by
  intro l
  induction l generalizing seen with
  | nil => simp [dedupeGo]
  | cons r rest ih =>
    simp only [dedupeGo]
    by_cases h : _get_record_hash r idField ∈ seen
    · rw [if_pos h]
      exact (ih seen).cons r
    · rw [if_neg h]
      exact (ih _).cons₂ r

theorem dedupeGo_eq_firstKeyOccurrences (idField : String) :
    ∀ (l : List Record) (seen : List (JVal × Record)) (pre : List Record),
      (∀ k, k ∈ seen ↔ k ∈ pre.map (fun x => _get_record_hash x idField)) →
      dedupeGo idField seen l = firstKeyOccurrences idField pre l := by
  intro l
  induction l with
  | nil => intro seen pre _; rfl
  | cons r rest ih =>
    intro seen pre hiff
    simp only [dedupeGo, firstKeyOccurrences]
    have hnext : ∀ k, k ∈ (_get_record_hash r idField :: seen) ↔
        k ∈ (pre ++ [r]).map (fun x => _get_record_hash x idField) := by
      intro k
      rw [List.map_append]
      simp only [List.mem_cons, List.mem_append, List.map_cons, List.map_nil,
        List.mem_singleton]
      rw [hiff k]
      tauto
    by_cases h : _get_record_hash r idField ∈ seen
    · rw [if_pos h, if_pos ((hiff _).mp h)]
      apply ih seen (pre ++ [r])
      intro k
      rw [hiff k, List.map_append]
      simp only [List.mem_append, List.map_cons, List.map_nil, List.mem_singleton]
      constructor
      · exact Or.inl
      · rintro (hk | hk)
        · exact hk
        · rw [hk]
          exact (hiff _).mp h
    · rw [if_neg h, if_neg (fun hc => h ((hiff _).mpr hc))]
      exact congrArg (r :: ·) (ih _ (pre ++ [r]) hnext)

theorem dedupe_eq_firstKeyOccurrences (records : List Record) (idField : String) :
    dedupe records idField = firstKeyOccurrences idField [] records :=
  dedupeGo_eq_firstKeyOccurrences idField records [] [] (by simp)

theorem dedupe_sublist (records : List Record) (idField : String) :
    (dedupe records idField).Sublist records :=
  dedupeGo_sublist idField [] records

/-- One output file written by `_save_batches`: the JSON payload minus
the wall-clock fields (`crawlerId` and `mergedAt` are constants of the
run and do not depend on the chunking). -/
structure BatchFile where
  batchNumber : Nat
  totalBatches : Nat
  totalRecords : Nat
  data : List Record
deriving DecidableEq

/-- `_save_batches`: split `records` into `ceil(len/batch_size)`
contiguous slices `records[i*bs : min((i+1)*bs, len)]` and emit one
payload per slice with the 1-based batch index and the slice's record
count; an empty record list writes nothing. -/
def _save_batches (records : List Record) (batchSize : Nat) : List BatchFile :=
  if records.length = 0 then []
  else
    let total := (records.length + batchSize - 1) / batchSize
    (List.range total).map (fun i =>
      { batchNumber := i + 1
        totalBatches := total
        totalRecords := ((records.drop (i * batchSize)).take batchSize).length
        data := (records.drop (i * batchSize)).take batchSize })

theorem chunks_join (batchSize : Nat) (hbs : 0 < batchSize) :
    ∀ (n : Nat) (records : List Record),
      n = (records.length + batchSize - 1) / batchSize →
      ((List.range n).map
        (fun i => (records.drop (i * batchSize)).take batchSize)).flatten = records := by
  intro n
  induction n with
  | zero =>
    intro records h
    have : records.length = 0 := by
      by_contra hc
      have h1 : 1 ≤ records.length := Nat.one_le_iff_ne_zero.mpr hc
      have h2 : 1 ≤ (records.length + batchSize - 1) / batchSize :=
        (Nat.one_le_div_iff hbs).mpr (by omega)
      omega
    simp [List.eq_nil_of_length_eq_zero this]
  | succ m ih =>
    intro records h
    rw [List.range_succ_eq_map]
    simp only [List.map_cons, List.map_map, List.flatten_cons, Nat.zero_mul,
      List.drop_zero]
    have hstep : ∀ i : Nat,
        ((records.drop batchSize).drop (i * batchSize)).take batchSize =
          (records.drop ((i + 1) * batchSize)).take batchSize := by
      intro i
      rw [List.drop_drop]
      congr 1
      ring_nf
    by_cases hlen : records.length ≤ batchSize
    · have hm : m = 0 := by
        have h2 : (records.length + batchSize - 1) / batchSize < 2 := by
          rw [Nat.div_lt_iff_lt_mul hbs]
          omega
        omega
      subst hm
      simp [List.take_of_length_le hlen]
    · push_neg at hlen
      have hm : m = ((records.drop batchSize).length + batchSize - 1) / batchSize := by
        rw [List.length_drop]
        have harith : records.length + batchSize - 1 =
            (records.length - batchSize + batchSize - 1) + batchSize := by omega
        rw [harith, Nat.add_div_right _ hbs] at h
        omega
      have htail := ih (records.drop batchSize) hm
      calc records.take batchSize ++
            ((List.range m).map
              (fun i => (records.drop ((i + 1) * batchSize)).take batchSize)).flatten
          = records.take batchSize ++
            ((List.range m).map
              (fun i => ((records.drop batchSize).drop (i * batchSize)).take
                batchSize)).flatten := by
            congr 1
            congr 1
            apply List.map_congr_left
            intro i _
            exact (hstep i).symm
        _ = records.take batchSize ++ records.drop batchSize := by rw [htail]
        _ = records := List.take_append_drop _ _

theorem save_batches_join (records : List Record) (batchSize : Nat)
    (hbs : 0 < batchSize) :
    ((_save_batches records batchSize).map (fun b => b.data)).flatten = records := by
  unfold _save_batches
  by_cases h : records.length = 0
  · rw [if_pos h]
    simp [List.eq_nil_of_length_eq_zero h]
  · rw [if_neg h]
    simp only [List.map_map]
    exact chunks_join batchSize hbs _ records rfl

/-- File-name ordering used by `sorted` on paths. -/
def strRel (a b : String) : Prop := charsLe a.data b.data = true

instance : DecidableRel strRel := fun a b =>
  inferInstanceAs (Decidable (_ = true))

instance : IsTrans String strRel :=
  ⟨fun _ _ _ h1 h2 => charsLe_trans h1 h2⟩

instance : IsTotal String strRel :=
  ⟨fun a b => charsLe_total a.data b.data⟩

/-- `archive_old_merged_files`: with no existing merged files the
function returns immediately; otherwise it sorts the files by name,
leaves the last one (the latest) in place, and plans to move every
other file into the `_archive/` subdirectory.  The returned pair is
(latest file kept in the primary directory, files to move). -/
def archive_old_merged_files (files : List String) : Option (String × List String) :=
  if files = [] then none
  else
    let sortedFiles := List.insertionSort strRel files
    some (sortedFiles.getLastD "", sortedFiles.dropLast)

/-- The per-file move loop of `archive_old_merged_files`: each move is
attempted inside its own `try`/`except`, so the set of files actually
placed in the archive is exactly the set of planned moves whose
`shutil.move` succeeds, independent of other files' failures.  `ok`
tells which moves succeed. -/
def performMoves (ok : String → Bool) (toArchive : List String) : List String :=
  toArchive.filter ok

theorem sorted_last_max {l : List String} (hs : List.Sorted strRel l)
    (hne : l ≠ []) : ∀ x ∈ l, strRel x (l.getLastD "") := by
  induction l with
  | nil => exact absurd rfl hne
  | cons a rest ih =>
    intro x hx
    cases rest with
    | nil =>
      rw [List.mem_singleton.mp hx]
      show charsLe a.data a.data = true
      exact (charsLe_total a.data a.data).elim id id
    | cons b rest2 =>
      have hs2 : List.Sorted strRel (b :: rest2) := hs.of_cons
      have hlast : (a :: b :: rest2).getLastD "" = (b :: rest2).getLastD "" := by
        simp [List.getLastD]
      rw [hlast]
      rcases List.mem_cons.mp hx with hx1 | hx1
      · subst hx1
        have hab : strRel x b := (List.sorted_cons.mp hs).1 b (List.mem_cons_self _ _)
        have hbl : strRel b ((b :: rest2).getLastD "") :=
          ih hs2 (by simp) b (List.mem_cons_self _ _)
        exact charsLe_trans hab hbl
      · exact ih hs2 (by simp) x hx1

/-- Python whitespace characters stripped by `str.strip()`. -/
def isPySpace (c : Char) : Bool :=
  decide (c = ' ') || decide (c = '\t') || decide (c = '\n') ||
  decide (c = '\r') || decide (c = '\x0b') || decide (c = '\x0c')

/-- `str.strip()`: drop whitespace from both ends. -/
def pyStrip (cs : List Char) : List Char :=
  ((cs.dropWhile isPySpace).reverse.dropWhile isPySpace).reverse

/-- Match `(\d{1,2})` followed by the literal delimiter `d`, consuming
both.  The regex group is greedy with backtracking; since the delimiter
is never a digit, greedy matching without backtracking is exact. -/
def grabMonth (d : Char) : List Char → Option (Nat × List Char)
  | a :: b :: rest =>
    if isDigitCh a then
      if isDigitCh b then
        match rest with
        | r :: rest2 =>
          if r = d then some (digitVal a * 10 + digitVal b, rest2) else none
        | [] => none
      else if b = d then some (digitVal a, rest) else none
    else none
  | _ => none

/-- Match the final `(\d{1,2})` group greedily; `re.match` does not
anchor the end of the string, so trailing characters are ignored. -/
def grabDay : List Char → Option Nat
  | a :: b :: _ =>
    if isDigitCh a then
      some (if isDigitCh b then digitVal a * 10 + digitVal b else digitVal a)
    else none
  | [a] => if isDigitCh a then some (digitVal a) else none
  | [] => none

/-- `re.match` of one pattern `(\d{3})<d>(\d{1,2})<d>(\d{1,2})` against
the start of the string. -/
def matchRocPattern (d : Char) : List Char → Option (Nat × Nat × Nat)
  | a :: b :: c :: d1 :: rest =>
    if isDigitCh a && isDigitCh b && isDigitCh c && decide (d1 = d) then
      match grabMonth d rest with
      | some (m, rest2) =>
        match grabDay rest2 with
        | some dd =>
          some (digitVal a * 100 + digitVal b * 10 + digitVal c, m, dd)
        | none => none
      | none => none
    else none
  | _ => none

/-- One `for pattern in patterns` iteration body of `_parse_roc_date`:
if the pattern matches, construct `datetime(roc_year + 1911, month,
day)`; a `ValueError` from invalid fields falls through to the next
pattern. -/
def tryRocPattern (d : Char) (cs : List Char) : Option PyDateTime :=
  match matchRocPattern d cs with
  | some (y, m, dd) =>
    if validYmd (y + 1911) m dd then some ⟨y + 1911, m, dd, 0, 0, 0, 0, none⟩
    else none
  | none => none

/-- `_parse_roc_date`: strip the string, return `None` for blank input,
then try the slash, dot and dash patterns in order, converting the
3-digit era year with the fixed offset 1911. -/
def _parse_roc_date (s : String) : Option PyDateTime :=
  let cs := pyStrip s.data
  if cs = [] then none
  else
    match tryRocPattern '/' cs with
    | some t => some t
    | none =>
      match tryRocPattern '.' cs with
      | some t => some t
      | none => tryRocPattern '-' cs

/-- Python `datetime < datetime` on naive values: lexicographic on the
civil fields.  Both sides of the `_is_expired` comparison are naive
with zeroed time, so this is a date-only comparison. -/
def dtLt (a b : PyDateTime) : Bool :=
  lexNat a.year b.year (lexNat a.month b.month (lexNat a.day b.day
    (lexNat a.hour b.hour (lexNat a.minute b.minute (lexNat a.second b.second
      (lexNat a.micro b.micro false))))))

/-- A reference date (`datetime.now()` truncated to midnight by
`.replace(hour=0, minute=0, second=0, microsecond=0)`). -/
def midnight (y m d : Nat) : PyDateTime := ⟨y, m, d, 0, 0, 0, 0, none⟩

/-- `_is_expired`: `None` or blank deadline strings and strings that
fail `_parse_roc_date` are never expired; otherwise expired exactly
when the parsed date is strictly before today's midnight.  The
reference date is the triple `(ty, tm, td)` of today's civil date. -/
def _is_expired (dateStr : Option String) (ty tm td : Nat) : Bool :=
  match dateStr with
  | none => false
  | some s =>
    if pyStrip s.data = [] then false
    else
      match _parse_roc_date s with
      | none => false
      | some p => dtLt p (midnight ty tm td)

/-- A parsed JSON document, as handed to the loaders by `json.load`. -/
inductive Json where
  | null : Json
  | bool (b : Bool) : Json
  | num (n : Int) : Json
  | str (s : String) : Json
  | arr (elems : List Json) : Json
  | obj (fields : List (String × Json)) : Json

/-- Sum of the `data` sub-lists of an object-of-arrays, in key order:
`for key, items in records.items(): if isinstance(items, list):
all_records.extend(items)`. -/
def subArraysConcat (fields : List (String × Json)) : List Json :=
  fields.foldl
    (fun acc kv =>
      match kv.2 with
      | Json.arr items => acc ++ items
      | _ => acc) []

/-- Per-file record extraction of `DataCleaner._load_json_files`
(inside its `try`): only an object with a `data` key contributes
records — a `data` array directly, a `data` object through its
array-valued entries.  Every other top-level shape contributes nothing
(a top-level array never satisfies `"data" in data` with a record
element, and non-container types raise and are caught). -/
def extractRecordsUtils : Json → List Json
  | Json.obj fields =>
    match List.lookup "data" fields with
    | some (Json.obj sub) => subArraysConcat sub
    | some (Json.arr items) => items
    | some _ => []
    | none => []
  | _ => []

/-- `_load_json` of the google-drive cleaner: a top-level array is
returned as-is, an object with a `data` array returns that array, and
any other shape (including a `data` object-of-arrays) raises
`ValueError`. -/
def _load_json : Json → Except String (List Json)
  | Json.arr xs => Except.ok xs
  | Json.obj fields =>
    match List.lookup "data" fields with
    | some (Json.arr xs) => Except.ok xs
    | _ => Except.error "Unexpected JSON format"
  | _ => Except.error "Unexpected JSON format"

/-- The substring `"_merged_"` test on a file name (`"_merged_" in
file_path.name`). -/
def listStartsWith : List Char → List Char → Bool
  | [], _ => true
  | _ :: _, [] => false
  | a :: as, b :: bs => decide (a = b) && listStartsWith as bs

def hasSubstring (pat : List Char) : List Char → Bool
  | [] => listStartsWith pat []
  | c :: rest => listStartsWith pat (c :: rest) || hasSubstring pat rest

def containsMergedMark (name : String) : Bool :=
  hasSubstring "_merged_".data name.data

/-- `DataCleaner._load_json_files` over an in-memory directory listing:
skip every file whose name contains `"_merged_"`, and concatenate the
extracted records of the remaining files in listing order. -/
def _load_json_files (files : List (String × Json)) : List Json :=
  files.foldl
    (fun acc f =>
      if containsMergedMark f.1 then acc
      else acc ++ extractRecordsUtils f.2) []

theorem getLastD_mem : ∀ (l : List String), l ≠ [] → l.getLastD "" ∈ l := by
  intro l
  induction l with
  | nil => intro h; exact absurd rfl h
  | cons a rest ih =>
    intro _
    cases rest with
    | nil => exact List.mem_singleton_self a
    | cons b rest2 =>
      have : (a :: b :: rest2).getLastD "" = (b :: rest2).getLastD "" := by
        simp [List.getLastD]
      rw [this]
      exact List.mem_cons_of_mem a (ih (by simp))

theorem dropLast_append_getLastD : ∀ (l : List String), l ≠ [] →
    l.dropLast ++ [l.getLastD ""] = l := by
  intro l
  induction l with
  | nil => intro h; exact absurd rfl h
  | cons a rest ih =>
    intro _
    cases rest with
    | nil => rfl
    | cons b rest2 =>
      have h1 : (a :: b :: rest2).dropLast = a :: (b :: rest2).dropLast := by
        simp [List.dropLast]
      have h2 : (a :: b :: rest2).getLastD "" = (b :: rest2).getLastD "" := by
        simp [List.getLastD]
      rw [h1, h2, List.cons_append, ih (by simp)]

theorem loadFold_general (files : List (String × Json)) (acc : List Json) :
    files.foldl
        (fun acc f =>
          if containsMergedMark f.1 then acc
          else acc ++ extractRecordsUtils f.2) acc =
      acc ++ files.flatMap
        (fun f => if containsMergedMark f.1 then [] else extractRecordsUtils f.2) := by
  induction files generalizing acc with
  | nil => simp
  | cons f rest ih =>
    simp only [List.foldl_cons, List.flatMap_cons]
    by_cases h : containsMergedMark f.1
    · rw [if_pos h, if_pos h, ih]
      simp
    · rw [if_neg h, if_neg h, ih]
      simp

theorem load_json_files_flatMap (files : List (String × Json)) :
    _load_json_files files =
      files.flatMap
        (fun f => if containsMergedMark f.1 then [] else extractRecordsUtils f.2) := by
  unfold _load_json_files
  rw [loadFold_general]
  simp

theorem flatMap_filter_merged (files : List (String × Json)) :
    files.flatMap
        (fun f => if containsMergedMark f.1 then [] else extractRecordsUtils f.2) =
      (files.filter (fun f => !(containsMergedMark f.1))).flatMap
        (fun f => extractRecordsUtils f.2) := by
  induction files with
  | nil => rfl
  | cons f rest ih =>
    simp only [List.flatMap_cons, List.filter_cons]
    by_cases h : containsMergedMark f.1
    · rw [if_pos h]
      simp only [h, Bool.not_true, Bool.false_eq_true, if_false]
      simpa using ih
    · rw [if_neg h]
      simp only [Bool.not_eq_true'] at h
      simp only [h, Bool.not_false, if_true, List.flatMap_cons]
      rw [ih]

theorem subArraysConcat_general (fields : List (String × Json)) (acc : List Json) :
    fields.foldl
        (fun acc kv =>
          match kv.2 with
          | Json.arr items => acc ++ items
          | _ => acc) acc =
      acc ++ (fields.filterMap
        (fun kv =>
          match kv.2 with
          | Json.arr items => some items
          | _ => none)).flatten := by
  induction fields generalizing acc with
  | nil => simp
  | cons kv rest ih =>
    simp only [List.foldl_cons, List.filterMap_cons]
    cases hv : kv.2 with
    | arr items =>
      simp only [ih, List.flatten_cons, List.append_assoc]
    | null => simpa using ih acc
    | bool b => simpa using ih acc
    | num n => simpa using ih acc
    | str s => simpa using ih acc
    | obj fs => simpa using ih acc

theorem subArraysConcat_eq (fields : List (String × Json)) :
    subArraysConcat fields =
      (fields.filterMap
        (fun kv =>
          match kv.2 with
          | Json.arr items => some items
          | _ => none)).flatten := by
  unfold subArraysConcat
  rw [subArraysConcat_general]
  simp

/-- Key assigned as a function of the first truthy candidate value (the
specification-side reformulation of the walk in
`_record_timestamp_key`). -/
def tsKeyOfCandidate : Option JVal → TsKey
  | none => (2, TsVal.raw (JVal.str ""))
  | some (JVal.str s) =>
    match fromisoformat (replaceZ s) with
    | some t => (0, TsVal.dt t)
    | none => (1, TsVal.raw (JVal.str s))
  | some v => (1, TsVal.raw v)

/-- The first candidate field value that is truthy, in precedence
order; falsy values (`None`, `False`, `0`, `""`, absent) are skipped. -/
def firstTruthyCandidate (r : Record) : Option JVal :=
  (tsFieldNames.map (pyGet r)).find? truthy

theorem tsKeyAux_eq_candidate :
    ∀ (fields : List String) (r : Record),
      tsKeyAux fields r = tsKeyOfCandidate ((fields.map (pyGet r)).find? truthy) := by
  intro fields
  induction fields with
  | nil => intro r; rfl
  | cons f rest ih =>
    intro r
    simp only [tsKeyAux, List.map_cons, List.find?_cons]
    by_cases h : truthy (pyGet r f) = true
    · rw [if_pos h, h]
      cases hv : pyGet r f with
      | null => rw [hv] at h; simp [truthy] at h
      | bool b => rfl
      | num n => rfl
      | str s => rfl
    · rw [if_neg h]
      simp only [Bool.not_eq_true] at h
      rw [h]
      exact ih r

theorem record_timestamp_key_eq (r : Record) :
    _record_timestamp_key r = tsKeyOfCandidate (firstTruthyCandidate r) :=
  tsKeyAux_eq_candidate tsFieldNames r

theorem tsKey_le_missing (r : Record) :
    tsKeyLe (_record_timestamp_key r) (2, TsVal.raw (JVal.str "")) = true := by
  rw [record_timestamp_key_eq]
  cases hc : firstTruthyCandidate r with
  | none => decide
  | some v =>
    cases v with
    | null => decide
    | bool b => simp [tsKeyOfCandidate, tsKeyLe, lexNat]
    | num n => simp [tsKeyOfCandidate, tsKeyLe, lexNat]
    | str s =>
      simp only [tsKeyOfCandidate]
      cases hp : fromisoformat (replaceZ s) with
      | none => simp [tsKeyLe, lexNat]
      | some t => simp [tsKeyLe, lexNat]

theorem is_expired_iff (s : String) (ty tm td : Nat) :
    _is_expired (some s) ty tm td = true ↔
      ∃ p, _parse_roc_date s = some p ∧ dtLt p (midnight ty tm td) = true := by
  simp only [_is_expired]
  by_cases hb : pyStrip s.data = []
  · rw [if_pos hb]
    simp only [Bool.false_eq_true, false_iff]
    rintro ⟨p, hp, _⟩
    unfold _parse_roc_date at hp
    rw [if_pos hb] at hp
    exact Option.noConfusion hp
  · rw [if_neg hb]
    cases hp : _parse_roc_date s with
    | none =>
      simp only [Bool.false_eq_true, false_iff]
      rintro ⟨p, hp2, _⟩
      exact Option.noConfusion hp2
    | some p =>
      constructor
      · intro h
        exact ⟨p, rfl, h⟩
      · rintro ⟨q, hq, hlt⟩
        have hpq : p = q := Option.some_inj.mp hq
        show dtLt p (midnight ty tm td) = true
        rw [hpq]
        exact hlt

theorem is_expired_none_of_parse_fail {s : String}
    (h : _parse_roc_date s = none) (ty tm td : Nat) :
    _is_expired (some s) ty tm td = false := by
  simp only [_is_expired]
  by_cases hb : pyStrip s.data = []
  · rw [if_pos hb]
  · rw [if_neg hb, h]

theorem save_batches_mem {records : List Record} {batchSize : Nat} {b : BatchFile}
    (hb : b ∈ _save_batches records batchSize) :
    b.totalRecords = b.data.length ∧ b.data.length ≤ batchSize ∧
      b.totalBatches = (_save_batches records batchSize).length := by
  unfold _save_batches at hb ⊢
  by_cases h : records.length = 0
  · rw [if_pos h] at hb
    exact absurd hb (List.not_mem_nil b)
  · rw [if_neg h] at hb ⊢
    simp only [List.mem_map, List.mem_range] at hb
    rcases hb with ⟨i, _, hbi⟩
    subst hbi
    refine ⟨rfl, ?_, ?_⟩
    · rw [List.length_take]
      exact Nat.min_le_left _ _
    · simp

theorem save_batches_indices (records : List Record) (batchSize : Nat) :
    (_save_batches records batchSize).map (fun b => b.batchNumber) =
      (List.range (_save_batches records batchSize).length).map (fun i => i + 1) := by
  unfold _save_batches
  by_cases hz : records.length = 0
  · rw [if_pos hz]
    rfl
  · rw [if_neg hz]
    simp [List.map_map, Function.comp]

theorem save_batches_scenario (r : Record) :
    (_save_batches (List.replicate 2500 r) 1000).map (fun b => b.data.length) =
      [1000, 1000, 500] := by
  unfold _save_batches
  rw [if_neg (by rw [List.length_replicate]; omega)]
  have ht : ((List.replicate 2500 r : List Record).length + 1000 - 1) / 1000 = 3 := by
    rw [List.length_replicate]
  rw [ht]
  simp only [List.map_map]
  have hr3 : List.range 3 = [0, 1, 2] := rfl
  rw [hr3]
  simp only [List.map_cons, List.map_nil, Function.comp_apply]
  rw [List.length_take, List.length_take, List.length_take,
      List.length_drop, List.length_drop, List.length_drop, List.length_replicate]
  norm_num

/-- C1's property of the version reducer: the output never grows, and,
for every group formed by the grouping step, the output restricted to
that group's id is exactly the reduction of the group's time-sorted
records — a subsequence of the sorted group obtained by keeping the
first record and then each record whose Fingerprint differs from the
most recently kept one. -/
def VersionReducerSpec (records : List Record) (idField : String) : Prop :=
  (keep_only_changed_versions records idField).length ≤ records.length ∧
  ∀ p ∈ groupByIdField records idField,
    (keep_only_changed_versions records idField).filter
        (fun r => decide (pyGet r idField = p.1)) =
      reduceGroup (List.insertionSort recRel p.2) ∧
    (reduceGroup (List.insertionSort recRel p.2)).Sublist
      (List.insertionSort recRel p.2) ∧
    ReducesGroup none (List.insertionSort recRel p.2)
      (reduceGroup (List.insertionSort recRel p.2))

/-- C3's property of the grouping step: no record with a `None` id in
the output, the groups together hold exactly the records with a
non-null id, and every such record lies in exactly one group. -/
def GroupingSpec (records : List Record) (idField : String) : Prop :=
  (∀ r ∈ keep_only_changed_versions records idField, pyGet r idField ≠ JVal.null) ∧
  sizeSum (groupByIdField records idField) =
    (records.filter (fun r => !(decide (pyGet r idField = JVal.null)))).length ∧
  ∀ r ∈ records, pyGet r idField ≠ JVal.null →
    ∃ p, p ∈ groupByIdField records idField ∧ r ∈ p.2 ∧
      ∀ q, q ∈ groupByIdField records idField → r ∈ q.2 → q = p

/-- C4's amended property of the temporal key: the key is a function of
the first truthy candidate value (priority 0 for a parseable ISO
string, 1 for a present-but-unparsable value, 2 when every candidate is
missing or falsy), and every key sorts no later than the priority-2
placeholder. -/
def TemporalKeySpec (r : Record) : Prop :=
  _record_timestamp_key r = tsKeyOfCandidate (firstTruthyCandidate r) ∧
  tsKeyLe (_record_timestamp_key r) (2, TsVal.raw (JVal.str "")) = true

/-- C5's property of the expiry filter: `None`, blank and unparsable
deadlines are never expired; a parsed deadline is expired exactly when
it is strictly before the reference date; the comparison is date-only;
and each accepted delimiter style parses with the fixed era offset
1911. -/
def ExpirySpec : Prop :=
  (∀ ty tm td, _is_expired none ty tm td = false) ∧
  (∀ ty tm td, _is_expired (some "") ty tm td = false) ∧
  (∀ s ty tm td, _parse_roc_date s = none → _is_expired (some s) ty tm td = false) ∧
  (∀ s ty tm td, _is_expired (some s) ty tm td = true ↔
      ∃ p, _parse_roc_date s = some p ∧ dtLt p (midnight ty tm td) = true) ∧
  (∀ y m d y2 m2 d2, dtLt (midnight y m d) (midnight y2 m2 d2) =
      lexNat y y2 (lexNat m m2 (lexNat d d2 false))) ∧
  _parse_roc_date "114/12/13" = some (midnight 2025 12 13) ∧
  _parse_roc_date "114.1.2" = some (midnight 2025 1 2) ∧
  _parse_roc_date "114-12-13" = some (midnight 2025 12 13) ∧
  _parse_roc_date "not-a-date" = none

/-- C6's property of the duplicate eliminator: the output equals the
first-occurrence-per-composite-key walk, and is a subsequence of the
input (so order is preserved and the output never grows). -/
def DedupeSpec (records : List Record) (idField : String) : Prop :=
  dedupe records idField = firstKeyOccurrences idField [] records ∧
  (dedupe records idField).Sublist records ∧
  (dedupe records idField).length ≤ records.length

/-- C7's property of the batch writer: the chunks concatenate back to
the input in order, each chunk is at most `batchSize` long and carries
its own record count and the total batch count, batch indices are
1-based and consecutive, and 2500 records at batch size 1000 produce
exactly the sizes [1000, 1000, 500]. -/
def SaveBatchesSpec (records : List Record) (batchSize : Nat) : Prop :=
  ((_save_batches records batchSize).map (fun b => b.data)).flatten = records ∧
  (∀ b ∈ _save_batches records batchSize,
    b.totalRecords = b.data.length ∧ b.data.length ≤ batchSize ∧
      b.totalBatches = (_save_batches records batchSize).length) ∧
  (_save_batches records batchSize).map (fun b => b.batchNumber) =
    (List.range (_save_batches records batchSize).length).map (fun i => i + 1) ∧
  ∀ r : Record,
    (_save_batches (List.replicate 2500 r) 1000).map (fun b => b.data.length) =
      [1000, 1000, 500]

/-- C8's property of the archive rotator: for a non-empty set of merged
files the plan retains a lexicographically maximal member and moves
exactly the rest, and each planned move succeeds or fails independently
of the others. -/
def RotateSpec (files : List String) : Prop :=
  ∃ latest toArchive,
    archive_old_merged_files files = some (latest, toArchive) ∧
    latest ∈ files ∧
    (∀ f ∈ files, strRel f latest) ∧
    (toArchive ++ [latest]).Perm files ∧
    (∀ ok : String → Bool, performMoves ok toArchive = toArchive.filter ok) ∧
    ∀ ok : String → Bool, ∀ g ∈ toArchive, ok g = true →
      g ∈ performMoves ok toArchive

/-- C9's amended property of the two loaders: which top-level shapes
each loader accepts and what it extracts from them. -/
def LoaderShapesSpec : Prop :=
  (∀ xs, extractRecordsUtils (Json.arr xs) = []) ∧
  (∀ fields xs, List.lookup "data" fields = some (Json.arr xs) →
    extractRecordsUtils (Json.obj fields) = xs) ∧
  (∀ fields sub, List.lookup "data" fields = some (Json.obj sub) →
    extractRecordsUtils (Json.obj fields) =
      (sub.filterMap
        (fun kv =>
          match kv.2 with
          | Json.arr items => some items
          | _ => none)).flatten) ∧
  (∀ xs, _load_json (Json.arr xs) = Except.ok xs) ∧
  (∀ fields xs, List.lookup "data" fields = some (Json.arr xs) →
    _load_json (Json.obj fields) = Except.ok xs) ∧
  ∀ fields sub, List.lookup "data" fields = some (Json.obj sub) →
    _load_json (Json.obj fields) = Except.error "Unexpected JSON format"

/-- C1: for every record list and id field, the version reducer keeps
the first record of each sorted version group and each later record
exactly when its Fingerprint differs from the most recently kept one;
per group the output is a subsequence of the sorted group, and the
total output length is at most the input length. -/
theorem version_reducer_keeps_changed_only (records : List Record) (idField : String) :
    VersionReducerSpec records idField := by
  refine ⟨keep_length_le records idField, ?_⟩
  intro p hp
  rcases versionBlocks_cond records idField with ⟨hnd, hcond⟩
  refine ⟨?_, reduceGroup_sublist _, reducesGroup_reduceGroup _⟩
  rw [keep_eq_flatMap_blocks]
  have hp2 : (p.1, reduceGroup (List.insertionSort recRel p.2)) ∈
      versionBlocks records idField := by
    unfold versionBlocks
    exact List.mem_map_of_mem _ hp
  exact blocks_filter_key hnd (fun q hq x hx => (hcond q hq).2.2 x hx) _ hp2

/-- C2: the version reducer is idempotent — applied to its own output it
returns that output unchanged. -/
theorem reduce_versions_idempotent (records : List Record) (idField : String) :
    keep_only_changed_versions (keep_only_changed_versions records idField) idField =
      keep_only_changed_versions records idField := by
  conv_lhs => rw [keep_def]
  rw [groupByIdField_keep]
  unfold versionBlocks
  rw [flatMap_map_gen]
  conv_rhs => rw [keep_def]
  apply flatMap_congr_mem
  intro p _
  simp only
  rw [insertionSort_reduceGroup_fix, reduceGroup_idem]

/-- C3: records whose id reads back as `None` are absent from the
reducer's output, the grouping step keeps every record with a non-null
id, and each such record is assigned to exactly one group. -/
theorem grouping_drops_only_null_ids (records : List Record) (idField : String) :
    GroupingSpec records idField := by
  rcases versionBlocks_cond records idField with ⟨hndB, hcondB⟩
  obtain ⟨hnd, hmem⟩ := groupByIdField_GInv records idField
  refine ⟨?_, groupByIdField_sizeSum records idField, ?_⟩
  · intro r hr
    rw [keep_eq_flatMap_blocks] at hr
    rcases List.mem_flatMap.mp hr with ⟨p, hp, hrp⟩
    rcases hcondB p hp with ⟨h1, _, h3⟩
    rw [h3 r hrp]
    exact h1
  · intro r hr hnn
    rcases mem_groupByIdField hr hnn with ⟨p, hp, hrp⟩
    refine ⟨p, hp, hrp, ?_⟩
    intro q hq hrq
    exact eq_of_mem_of_fst_eq hnd hq hp
      (((hmem q hq).2.2 r hrq).symm.trans ((hmem p hp).2.2 r hrp))

/-- C4 counterexample: a candidate timestamp field that is present with
the falsy value `0` is skipped — the key gets priority 2 (or the next
truthy candidate), not priority 1 with the raw value as the claim
states. -/
theorem temporal_key_claim_counterexample :
    _record_timestamp_key [("scrapedAt", JVal.num 0)] =
      (2, TsVal.raw (JVal.str "")) ∧
    _record_timestamp_key [("scrapedAt", JVal.num 0)] ≠
      (1, TsVal.raw (JVal.num 0)) ∧
    _record_timestamp_key [("scrapedAt", JVal.num 0), ("created_at", JVal.num 7)] =
      (1, TsVal.raw (JVal.num 7)) :=
  ⟨by decide, by decide, by decide⟩

/-- C4 (amended): the temporal key is determined by the first candidate
field whose value is truthy — falsy values (missing, `None`, `False`,
`0`, `""`) are skipped — with priority 0 and the parsed instant for a
parseable ISO string, priority 1 with the raw value otherwise, and
priority 2 with the empty placeholder when no truthy candidate exists;
priority-2 records sort last in their group. -/
theorem temporal_key_priorities_amended (r : Record) : TemporalKeySpec r :=
  ⟨record_timestamp_key_eq r, tsKey_le_missing r⟩

/-- C5: the expiry filter fails open on `None`, blank and unparsable
deadline strings, and otherwise reports expiry exactly when the parsed
civil date (era year + 1911) is strictly before the reference date,
comparing dates only. -/
theorem is_expired_fail_open_and_strict : ExpirySpec := by
  refine ⟨?_, ?_, ?_, ?_, ?_, ?_, ?_, ?_, ?_⟩
  · intro ty tm td; rfl
  · intro ty tm td; rfl
  · intro s ty tm td h; exact is_expired_none_of_parse_fail h ty tm td
  · intro s ty tm td; exact is_expired_iff s ty tm td
  · intro y m d y2 m2 d2; rfl
  · decide
  · decide
  · decide
  · decide

/-- C6: the duplicate eliminator keeps exactly the first record
observed for each composite key (id value plus content hash of the full
canonical serialization), preserving input order, with output length at
most input length. -/
theorem dedupe_first_occurrence_order_preserving
    (records : List Record) (idField : String) : DedupeSpec records idField :=
  ⟨dedupe_eq_firstKeyOccurrences records idField, dedupe_sublist records idField,
    (dedupe_sublist records idField).length_le⟩

/-- C7: the batch writer splits the record list into contiguous,
order-preserving chunks of at most `batchSize`, each carrying its
1-based index and record count; 2500 records at batch size 1000 yield
exactly three files of sizes 1000, 1000 and 500. -/
theorem save_batches_chunking (records : List Record) (batchSize : Nat)
    (hbs : 0 < batchSize) : SaveBatchesSpec records batchSize :=
  ⟨save_batches_join records batchSize hbs, fun _ hb => save_batches_mem hb,
    save_batches_indices records batchSize, save_batches_scenario⟩

theorem save_batches_chunking_witness :
    0 < 1000 ∧ SaveBatchesSpec [[("tenderId", JVal.str "A")]] 1000 :=
  ⟨by decide, save_batches_chunking [[("tenderId", JVal.str "A")]] 1000 (by decide)⟩

/-- C8: called on a non-empty set of merged files, rotation keeps a
lexicographically maximal file and plans to move exactly the remaining
files into the archive; each move succeeds or fails independently of
the other files' failures. -/
theorem archive_rotation_keeps_latest (files : List String) (hne : files ≠ []) :
    RotateSpec files := by
  have hperm := List.perm_insertionSort strRel files
  have hsne : List.insertionSort strRel files ≠ [] := by
    intro hc
    apply hne
    rw [hc] at hperm
    exact hperm.nil_eq.symm
  refine ⟨(List.insertionSort strRel files).getLastD "",
    (List.insertionSort strRel files).dropLast, ?_, ?_, ?_, ?_, ?_, ?_⟩
  · unfold archive_old_merged_files
    rw [if_neg hne]
  · exact hperm.subset (getLastD_mem _ hsne)
  · intro f hf
    exact sorted_last_max (List.sorted_insertionSort strRel files) hsne f
      (hperm.symm.subset hf)
  · rw [dropLast_append_getLastD _ hsne]
    exact hperm
  · intro ok; rfl
  · intro ok g hg hok
    exact List.mem_filter.mpr ⟨hg, hok⟩

theorem archive_rotation_keeps_latest_witness :
    (["tender_merged_20240115.json", "tender_merged_20240201.json",
      "tender_merged_20240101.json"] : List String) ≠ [] ∧
    RotateSpec ["tender_merged_20240115.json", "tender_merged_20240201.json",
      "tender_merged_20240101.json"] :=
  ⟨by simp, archive_rotation_keeps_latest _ (by simp)⟩

/-- C9 counterexample: the utils loader yields nothing from a top-level
array (the record inside it is lost), and the google-drive loader
rejects the `data` object-of-arrays shape with an error — so no single
loader flattens all three accepted shapes. -/
theorem loader_claim_counterexample :
    extractRecordsUtils (Json.arr [Json.obj [("tenderId", Json.str "A")]]) = [] ∧
    (Json.obj [("tenderId", Json.str "A")] ∈
      extractRecordsUtils (Json.arr [Json.obj [("tenderId", Json.str "A")]]) →
        False) ∧
    _load_json (Json.obj [("data", Json.obj [("k", Json.arr [Json.null])])]) =
      Except.error "Unexpected JSON format" :=
  ⟨rfl, fun h => List.not_mem_nil _ h, rfl⟩

/-- C9 (amended): the utils loader flattens an object whose `data` key
holds an array into that array and an object whose `data` key holds an
object-of-arrays into the concatenation of its array-valued entries,
but yields nothing for a top-level array; the google-drive loader
accepts a top-level array or a `data` array and errors on the
object-of-arrays shape. -/
theorem loader_shapes_amended : LoaderShapesSpec := by
  refine ⟨?_, ?_, ?_, ?_, ?_, ?_⟩
  · intro xs; rfl
  · intro fields xs h
    simp only [extractRecordsUtils, h]
  · intro fields sub h
    simp only [extractRecordsUtils, h]
    exact subArraysConcat_eq sub
  · intro xs; rfl
  · intro fields xs h
    simp only [_load_json, h]
  · intro fields sub h
    simp only [_load_json, h]

theorem loader_shapes_amended_witness :
    List.lookup "data" [("data", Json.arr [Json.num 5])] = some (Json.arr [Json.num 5]) ∧
    extractRecordsUtils (Json.obj [("data", Json.arr [Json.num 5])]) = [Json.num 5] :=
  ⟨rfl, loader_shapes_amended.2.1 [("data", Json.arr [Json.num 5])] [Json.num 5] rfl⟩

/-- C10: the utils loader never ingests a file whose name contains
`"_merged_"` — loading a listing equals loading the listing with all
such files removed. -/
theorem loader_excludes_merged_files (files : List (String × Json)) :
    _load_json_files files =
      _load_json_files (files.filter (fun f => !(containsMergedMark f.1))) := by
  rw [load_json_files_flatMap, load_json_files_flatMap, flatMap_filter_merged]
  apply flatMap_congr_mem
  intro f hf
  have hP := (List.mem_filter.mp hf).2
  rw [Bool.not_eq_true'] at hP
  simp [hP]
